import Mathlib

/-!
Verification of the price-comparison backend (`backend/app.py`).

Strings are embedded as `List Char`, monetary values as `ℚ` (the reachable
float values carry at most two decimal digits below 200000, where IEEE
doubles represent order and equality of such decimals faithfully).

External collaborators are kept abstract, exactly at the boundaries the code
uses them:
* the regex engine (`re.findall`): a pattern applied to a text yields a list
  of captured substrings in order of occurrence; components are therefore
  parametrized by those per-pattern match lists;
* the fetch adapter (`crawl4ai`): a URL fetch either yields page content or
  raises, modelled as `Except` values supplied by an oracle function;
* the event loop (`asyncio.gather`): completion of the fan-out tasks in an
  arbitrary order, modelled as a permutation of the indexed task results.
-/

/-- Numeric value of a digit string, as `foldl` over characters. -/
def natOfDigits (l : List Char) : ℕ :=
  l.foldl (fun n c => 10 * n + (c.toNat - '0'.toNat)) 0

/-- Embedding of `match.replace(",", "")` in `extract_price`. -/
def stripCommas (s : List Char) : List Char :=
  s.filter (fun c => !(c == ','))

/-- Embedding of Python `float(s)` on the strings reachable from the price
regex groups (digits, commas and at most one dot; commas already stripped):
an optional integer part and an optional fractional part around one dot,
with at least one digit in total.  Anything else raises `ValueError` in
Python and is `none` here. -/
def parseDecimal (s : List Char) : Option ℚ :=
  let intPart := s.takeWhile (fun c => !(c == '.'))
  let rest := s.dropWhile (fun c => !(c == '.'))
  match rest with
  | [] =>
      if !intPart.isEmpty && intPart.all Char.isDigit then
        some ((natOfDigits intPart : ℕ) : ℚ)
      else none
  | _ :: frac =>
      if (intPart.all Char.isDigit && frac.all Char.isDigit)
          && (!intPart.isEmpty || !frac.isEmpty) then
        some (((natOfDigits intPart : ℕ) : ℚ)
          + ((natOfDigits frac : ℕ) : ℚ) / ((10 : ℚ) ^ frac.length))
      else none

/-- One iteration of the inner loop of `extract_price`: parse a matched
substring (`float(match.replace(",", ""))`) and keep it only when the
plausibility filter `1000 <= price <= 200000` holds. -/
def matchCandidate (m : List Char) : Option ℚ :=
  match parseDecimal (stripCommas m) with
  | none => none
  | some price => if 1000 ≤ price ∧ price ≤ 200000 then some price else none

/-- The `prices` list of `extract_price`: all surviving candidates, pattern
by pattern in pattern order, each pattern's matches in occurrence order.
`matchess` holds, per pattern of `price_patterns`, the list of substrings
captured by `re.findall` over the text. -/
def collectPrices (matchess : List (List (List Char))) : List ℚ :=
  matchess.flatMap (fun ms => ms.filterMap matchCandidate)

/-- Order-preserving deduplication keeping first occurrences, the embedding
of Python `list(dict.fromkeys(...))`; also used for `list(set(prices))`
(there the order is irrelevant: the result is either a singleton or sorted
afterwards). -/
def dedupFirstAux [DecidableEq α] (seen : List α) : List α → List α
  | [] => []
  | a :: rest =>
      if a ∈ seen then dedupFirstAux seen rest
      else a :: dedupFirstAux (a :: seen) rest

/-- Deduplication keeping the first occurrence of each element. -/
def dedupFirst [DecidableEq α] (l : List α) : List α :=
  dedupFirstAux [] l

/-- Embedding of `extract_price` (lines 35-57 of `app.py`), parametrized by
the per-pattern `re.findall` results: filter and collect candidates, then
return `None` on no candidates, the unique candidate when one distinct value
remains, and otherwise the element at index `len // 2` of the
ascending-sorted distinct values. -/
def extract_price (matchess : List (List (List Char))) : Option ℚ :=
  let prices := collectPrices matchess
  if prices.isEmpty then none
  else
    let unique_prices := dedupFirst prices
    if unique_prices.length == 1 then some (unique_prices.headD 0)
    else
      let sorted := List.insertionSort (fun a b : ℚ => a ≤ b) unique_prices
      some (sorted.getD (sorted.length / 2) 0)

/-- Characters at which the first substitution of the link cleaning
truncates: angle brackets and the two quote characters (code points 34
and 39). -/
def badChar (c : Char) : Bool :=
  (c == '<') || (c == '>') || (c == Char.ofNat 34) || (c == Char.ofNat 39)

/-- The literal `&amp;`. -/
def ampToken : List Char := "&amp;".data

/-- Truncation at the first occurrence of `&amp;`, the embedding of
`re.sub(r'&amp;.*$', '', clean_link)` on newline-free links. -/
def truncAtAmp : List Char → List Char
  | [] => []
  | c :: rest =>
      if ampToken.isPrefixOf (c :: rest) then [] else c :: truncAtAmp rest

/-- The two-step cleaning of a raw matched link in `search_links`: truncate
at the first quote/angle-bracket character, then at any `&amp;` tail. -/
def sanitize (link : List Char) : List Char :=
  truncAtAmp (link.takeWhile (fun c => !(badChar c)))

/-- Substring test over character lists (Python `needle in s`). -/
def containsTok (needle : List Char) : List Char → Bool
  | [] => needle.isEmpty
  | c :: rest => needle.isPrefixOf (c :: rest) || containsTok needle rest

/-- The acceptance test of `search_links`: an HTTP(S) scheme
(`re.match(r'^https?://', ...)`), length strictly above 30, and one of the
product-page path tokens `dp/`, `/p/`, `itm/`. -/
def validLink (l : List Char) : Bool :=
  ("http://".data.isPrefixOf l || "https://".data.isPrefixOf l)
    && decide (30 < l.length)
    && (containsTok "dp/".data l || containsTok "/p/".data l
        || containsTok "itm/".data l)

/-- Abstraction of the fetched search-results content: what the three URL
patterns of `search_links` (Amazon `/dp/`, Flipkart `/p/`, eBay `/itm/`)
match in it via `re.findall`, each list in order of occurrence in the page. -/
structure SearchContent where
  amazonMatches : List (List Char)
  flipkartMatches : List (List Char)
  ebayMatches : List (List Char)
deriving DecidableEq

/-- Embedding of `search_links` (lines 85-127 of `app.py`).  The fetch of
the search page either fails (the `except` arm returns `[]`) or yields
content abstracted by its per-pattern matches; the raw links are then
concatenated in pattern order, cleaned, validated, deduplicated keeping
first occurrences, and capped at 3. -/
def search_links (fetchOutcome : Except (List Char) SearchContent) :
    List (List Char) :=
  match fetchOutcome with
  | .error _ => []
  | .ok c =>
      let all_links := c.amazonMatches ++ c.flipkartMatches ++ c.ebayMatches
      let clean_links := (all_links.map sanitize).filter validLink
      (dedupFirst clean_links).take 3

/-- Abstraction of a successful `crawler.arun` result: the two textual views
used by `crawl_price`, each possibly absent (`None`). -/
structure FetchResult where
  cleaned_html : Option (List Char)
  markdown : Option (List Char)
deriving DecidableEq

/-- Per-URL outcome record (`{"url": ..., "price": ..., "error": ...}`);
the success arm of `crawl_price` carries no `error` key (`none`). -/
structure PriceObservation where
  url : List Char
  price : Option ℚ
  error : Option (List Char)
deriving DecidableEq

/-- Embedding of `crawl_price` (lines 60-82 of `app.py`): on a successful
fetch, concatenate the two textual views (`(x or "")` yields the empty
string for `None`) with a space and extract a price; any exception is caught
and converted into an observation with a null price and the error message.
`extractor` stands for `extract_price` composed with the regex engine
applied to the ten price patterns. -/
def crawl_price (extractor : List Char → Option ℚ) (url : List Char)
    (fetchOutcome : Except (List Char) FetchResult) : PriceObservation :=
  match fetchOutcome with
  | .ok r =>
      let content := (r.cleaned_html.getD []) ++ " ".data ++ (r.markdown.getD [])
      { url := url, price := extractor content, error := none }
  | .error e => { url := url, price := none, error := some e }

/-- The fan-out of `asyncio.gather(*[crawl_price(l) for l in links])`: one
task per link, in link order; `fetch` is the oracle for each URL's fetch. -/
def collect (extractor : List Char → Option ℚ)
    (fetch : List Char → Except (List Char) FetchResult)
    (links : List (List Char)) : List PriceObservation :=
  links.map (fun l => crawl_price extractor l (fetch l))

/-- Task results tagged with their position in the task list, starting
at `k`. -/
def indexFrom (k : ℕ) : List α → List (ℕ × α)
  | [] => []
  | a :: rest => (k, a) :: indexFrom (k + 1) rest

/-- Reassembly step of `asyncio.gather`: given the task results in an
arbitrary completion order (tagged with their task indices), produce the
result list in task order. -/
def gatherAssemble (n : ℕ) (completed : List (ℕ × PriceObservation)) :
    List PriceObservation :=
  (List.range n).filterMap
    (fun i => (completed.find? (fun p => p.1 == i)).map Prod.snd)

/-- Aggregation step of `best_price` (lines 146-147 of `app.py`): keep the
observations with a non-null price and take the one with the minimum price;
Python `min` scans left to right and replaces the current best only on a
strictly smaller key, so ties keep the first-encountered observation. -/
def minAcc (best : PriceObservation) : List PriceObservation → PriceObservation
  | [] => best
  | x :: rest =>
      minAcc (if x.price.getD 0 < best.price.getD 0 then x else best) rest

/-- The `best` value of the report: `min(priced, key=...)` when some
observation has a price, `None` otherwise. -/
def bestOf (results : List PriceObservation) : Option PriceObservation :=
  match results.filter (fun r => r.price.isSome) with
  | [] => none
  | p :: rest => some (minAcc p rest)

/-- The whitespace set of Python `str.strip()` (CPython's unicode space
predicate): tab through carriage return (9-13), the file/group/record/unit
separators (28-31), space, next line (133), no-break space (160), ogham
space mark (5760), the unicode spaces 8192-8202, line separator (8232),
paragraph separator (8233), narrow no-break space (8239), medium
mathematical space (8287) and ideographic space (12288). -/
def isSpaceB (c : Char) : Bool :=
  (c == ' ')
    || (decide (9 ≤ c.toNat) && decide (c.toNat ≤ 13))
    || (decide (28 ≤ c.toNat) && decide (c.toNat ≤ 31))
    || (c == Char.ofNat 133) || (c == Char.ofNat 160)
    || (c == Char.ofNat 5760)
    || (decide (8192 ≤ c.toNat) && decide (c.toNat ≤ 8202))
    || (c == Char.ofNat 8232) || (c == Char.ofNat 8233)
    || (c == Char.ofNat 8239) || (c == Char.ofNat 8287)
    || (c == Char.ofNat 12288)

/-- Embedding of `str.strip()`: drop the whitespace characters above from
both ends. -/
def pyStrip (s : List Char) : List Char :=
  ((s.dropWhile isSpaceB).reverse.dropWhile isSpaceB).reverse

/-- Body of a response of the `/best-price` route: either an error object or
the success report. -/
inductive RespBody where
  | err (msg : List Char)
  | report (product : List Char) (best : Option PriceObservation)
      (all : List PriceObservation) (found_links : ℕ)
deriving DecidableEq

/-- An HTTP response: status code and JSON body. -/
structure HttpResponse where
  status : ℕ
  body : RespBody
deriving DecidableEq

/-- Embedding of the `best_price` route handler (lines 129-154 of
`app.py`): reject a missing or blank product with 400 before any fetch,
answer 404 when discovery yields no links, and otherwise crawl all links and
report the aggregate.  `productField` is the value of `"product"` in the
request JSON, `searchOutcome` the fetch oracle for the search page, `fetch`
the fetch oracle for the product pages. -/
def best_price (productField : Option (List Char))
    (searchOutcome : Except (List Char) SearchContent)
    (fetch : List Char → Except (List Char) FetchResult)
    (extractor : List Char → Option ℚ) : HttpResponse :=
  let product := pyStrip (productField.getD [])
  if product.isEmpty then
    ⟨400, .err "No product name provided".data⟩
  else
    let links := search_links searchOutcome
    if links.isEmpty then
      ⟨404, .err "No product links found".data⟩
    else
      let results := collect extractor fetch links
      ⟨200, .report product (bestOf results) results links.length⟩

/-! ### Helper lemmas -/

theorem dedupFirstAux_sublist [DecidableEq α] :
    ∀ (l seen : List α), (dedupFirstAux seen l).Sublist l := by
  intro l
  induction l with
  | nil => intro seen; simp [dedupFirstAux]
  | cons a rest ih =>
      intro seen
      by_cases h : a ∈ seen
      · simpa [dedupFirstAux, h] using (ih seen).cons a
      · simpa [dedupFirstAux, h] using (ih (a :: seen)).cons₂ a

theorem mem_dedupFirstAux [DecidableEq α] :
    ∀ (l seen : List α) (x : α),
      x ∈ dedupFirstAux seen l ↔ x ∈ l ∧ x ∉ seen := by
  intro l
  induction l with
  | nil => intro seen x; simp [dedupFirstAux]
  | cons a rest ih =>
      intro seen x
      by_cases h : a ∈ seen
      · rw [show dedupFirstAux seen (a :: rest) = dedupFirstAux seen rest from
          by simp [dedupFirstAux, h], ih]
        constructor
        · rintro ⟨hx, hn⟩; exact ⟨List.mem_cons_of_mem a hx, hn⟩
        · rintro ⟨hx, hn⟩
          rcases List.mem_cons.mp hx with rfl | hx'
          · exact absurd h hn
          · exact ⟨hx', hn⟩
      · rw [show dedupFirstAux seen (a :: rest)
            = a :: dedupFirstAux (a :: seen) rest from by simp [dedupFirstAux, h]]
        constructor
        · intro hx
          rcases List.mem_cons.mp hx with rfl | hx'
          · exact ⟨List.mem_cons_self x rest, h⟩
          · rcases (ih (a :: seen) x).mp hx' with ⟨hr, hn⟩
            exact ⟨List.mem_cons_of_mem a hr,
              fun hs => hn (List.mem_cons_of_mem a hs)⟩
        · rintro ⟨hx, hn⟩
          rcases List.mem_cons.mp hx with rfl | hx'
          · exact List.mem_cons_self x _
          · by_cases hxa : x = a
            · subst hxa; exact List.mem_cons_self x _
            · refine List.mem_cons_of_mem a ((ih (a :: seen) x).mpr ⟨hx', ?_⟩)
              intro hs
              rcases List.mem_cons.mp hs with h1 | h2
              · exact hxa h1
              · exact hn h2

theorem nodup_dedupFirstAux [DecidableEq α] :
    ∀ (l seen : List α), (dedupFirstAux seen l).Nodup := by
  intro l
  induction l with
  | nil => intro seen; simp [dedupFirstAux]
  | cons a rest ih =>
      intro seen
      by_cases h : a ∈ seen
      · simpa [dedupFirstAux, h] using ih seen
      · have hna : a ∉ dedupFirstAux (a :: seen) rest := by
          intro hmem
          rcases (mem_dedupFirstAux rest (a :: seen) a).mp hmem with ⟨_, hns⟩
          exact hns (List.mem_cons_self a seen)
        rw [show dedupFirstAux seen (a :: rest)
            = a :: dedupFirstAux (a :: seen) rest from by simp [dedupFirstAux, h]]
        exact List.nodup_cons.mpr ⟨hna, ih (a :: seen)⟩

theorem dedupFirst_sublist [DecidableEq α] (l : List α) :
    (dedupFirst l).Sublist l :=
  dedupFirstAux_sublist l []

theorem mem_dedupFirst [DecidableEq α] (l : List α) (x : α) :
    x ∈ dedupFirst l ↔ x ∈ l := by
  simp [dedupFirst, mem_dedupFirstAux]

theorem nodup_dedupFirst [DecidableEq α] (l : List α) :
    (dedupFirst l).Nodup :=
  nodup_dedupFirstAux l []

theorem dedupFirst_eq_nil [DecidableEq α] (l : List α) :
    dedupFirst l = [] ↔ l = [] := by
  cases l with
  | nil => simp [dedupFirst, dedupFirstAux]
  | cons a rest => simp [dedupFirst, dedupFirstAux]

theorem prefixB_iff :
    ∀ (p l : List Char), p.isPrefixOf l = true ↔ p <+: l := by
  intro p
  induction p with
  | nil =>
      intro l
      constructor
      · intro _; exact ⟨l, rfl⟩
      · intro _; cases l <;> rfl
  | cons a p ih =>
      intro l
      cases l with
      | nil =>
          simp only [List.isPrefixOf]
          constructor
          · intro h; cases h
          · rintro ⟨t, ht⟩; cases ht
      | cons b l =>
          simp only [List.isPrefixOf, Bool.and_eq_true, beq_iff_eq, ih]
          constructor
          · rintro ⟨rfl, t, rfl⟩; exact ⟨t, rfl⟩
          · rintro ⟨t, ht⟩
            injection ht with h1 h2
            exact ⟨h1, t, h2⟩

theorem matchCandidate_range (m : List Char) (p : ℚ)
    (h : matchCandidate m = some p) : 1000 ≤ p ∧ p ≤ 200000 := by
  cases hp : parseDecimal (stripCommas m) with
  | none => simp [matchCandidate, hp] at h
  | some v =>
      simp only [matchCandidate, hp] at h
      by_cases hr : 1000 ≤ v ∧ v ≤ 200000
      · rw [if_pos hr] at h
        injection h with h'
        exact h' ▸ hr
      · rw [if_neg hr] at h; cases h

theorem mem_collectPrices_range (M : List (List (List Char))) (p : ℚ)
    (h : p ∈ collectPrices M) : 1000 ≤ p ∧ p ≤ 200000 := by
  rcases List.mem_flatMap.mp h with ⟨ms, _, hm⟩
  rcases List.mem_filterMap.mp hm with ⟨m, _, hc⟩
  exact matchCandidate_range m p hc

theorem collectPrices_nil (M : List (List (List Char)))
    (h : ∀ ms ∈ M, ms = []) : collectPrices M = [] := by
  induction M with
  | nil => rfl
  | cons ms rest ih =>
      have h1 : ms = [] := h ms (List.mem_cons_self _ _)
      subst h1
      simpa [collectPrices, List.flatMap_cons] using
        ih (fun x hx => h x (List.mem_cons_of_mem _ hx))

theorem extract_price_congr (M1 M2 : List (List (List Char)))
    (h : collectPrices M1 = collectPrices M2) :
    extract_price M1 = extract_price M2 := by
  simp only [extract_price, h]

theorem extract_price_of_nil (M : List (List (List Char)))
    (h : collectPrices M = []) : extract_price M = none := by
  simp [extract_price, h]

theorem extract_price_mem (M : List (List (List Char))) (p : ℚ)
    (h : extract_price M = some p) : p ∈ collectPrices M := by
  by_cases h0 : collectPrices M = []
  · rw [extract_price_of_nil M h0] at h; cases h
  · simp only [extract_price] at h
    rw [if_neg (by simpa using h0)] at h
    by_cases h1 : (dedupFirst (collectPrices M)).length = 1
    · rw [if_pos (by simpa using h1)] at h
      injection h with h'
      rcases List.length_eq_one.mp h1 with ⟨v, hv⟩
      have hvp : v = p := by rw [hv] at h'; simpa using h'
      have : p ∈ dedupFirst (collectPrices M) := by
        rw [hv, hvp]; exact List.mem_cons_self _ _
      exact (mem_dedupFirst _ _).mp this
    · rw [if_neg (by simpa using h1)] at h
      injection h with h'
      have hperm := List.perm_insertionSort (fun a b : ℚ => a ≤ b)
        (dedupFirst (collectPrices M))
      have hpos : 0 < (List.insertionSort (fun a b : ℚ => a ≤ b)
          (dedupFirst (collectPrices M))).length := by
        rw [hperm.length_eq]
        rcases List.length_pos.mpr ((not_iff_not.mpr (dedupFirst_eq_nil _)).mpr h0)
          with h2
        exact h2
      have hlt : (List.insertionSort (fun a b : ℚ => a ≤ b)
            (dedupFirst (collectPrices M))).length / 2
          < (List.insertionSort (fun a b : ℚ => a ≤ b)
            (dedupFirst (collectPrices M))).length :=
        Nat.div_lt_self hpos (by norm_num)
      have hm : p ∈ List.insertionSort (fun a b : ℚ => a ≤ b)
          (dedupFirst (collectPrices M)) := by
        rw [← h', List.getD_eq_getElem _ _ hlt]
        exact List.getElem_mem hlt
      exact (mem_dedupFirst _ _).mp (hperm.mem_iff.mp hm)

theorem sorted_distinct_unique (M : List (List (List Char))) (s : List ℚ)
    (hsort : s.Pairwise (· < ·))
    (hperm : s.Perm (dedupFirst (collectPrices M))) :
    s = List.insertionSort (fun a b : ℚ => a ≤ b)
      (dedupFirst (collectPrices M)) := by
  have h1 : s.Perm (List.insertionSort (fun a b : ℚ => a ≤ b)
      (dedupFirst (collectPrices M))) :=
    hperm.trans (List.perm_insertionSort _ _).symm
  have hs1 : List.Sorted (fun a b : ℚ => a ≤ b) s :=
    hsort.imp (fun h => le_of_lt h)
  have hs2 : List.Sorted (fun a b : ℚ => a ≤ b)
      (List.insertionSort (fun a b : ℚ => a ≤ b)
        (dedupFirst (collectPrices M))) :=
    List.sorted_insertionSort _ _
  exact List.eq_of_perm_of_sorted h1 hs1 hs2

theorem infixB_iff :
    ∀ (l n : List Char), containsTok n l = true ↔ n <:+: l := by
  intro l
  induction l with
  | nil =>
      intro n
      simp only [containsTok, List.isEmpty_iff]
      constructor
      · rintro rfl; exact ⟨[], [], rfl⟩
      · rintro ⟨s, t, h⟩
        rcases List.append_eq_nil.mp h with ⟨h1, h2⟩
        exact (List.append_eq_nil.mp h1).2
  | cons c rest ih =>
      intro n
      simp only [containsTok, Bool.or_eq_true, prefixB_iff, ih]
      constructor
      · rintro (⟨t, ht⟩ | ⟨s, t, ht⟩)
        · exact ⟨[], t, ht⟩
        · exact ⟨c :: s, t, by simp [← ht]⟩
      · rintro ⟨s, t, ht⟩
        cases s with
        | nil => exact Or.inl ⟨t, by simpa using ht⟩
        | cons c' s =>
            injection ht with h1 h2
            exact Or.inr ⟨s, t, h2⟩

/-! ### Claims about the price extractor -/

/-- Claim C1, counterexample: on the two distinct in-range values 1500 and
2500, `extract_price` returns the element at index `2 / 2 = 1` of the
ascending-sorted distinct list — the upper-middle 2500 — and not the
lower-middle element (index `2 / 2 - 1 = 0`, value 1500) that the claim's
parenthetical names. -/
theorem claim_C1_counterexample :
    extract_price [["2500".data, "1500".data]]
        = some (([1500, 2500] : List ℚ).getD (2 / 2) 0)
      ∧ extract_price [["2500".data, "1500".data]]
        ≠ some (([1500, 2500] : List ℚ).getD (2 / 2 - 1) 0) := by
  constructor
  · decide
  · decide

/-- Claim C1 (amended): for matches yielding at least two distinct in-range
parsed values, `extract_price` returns the element at index `N / 2` of the
ascending-sorted list `s` of the `N` distinct surviving values (the
upper-middle element on even count); when exactly one distinct value
survives, it returns that value exactly. -/
theorem claim_C1 (M : List (List (List Char))) (s : List ℚ)
    (hsort : s.Pairwise (· < ·))
    (hperm : s.Perm (dedupFirst (collectPrices M))) :
    (2 ≤ s.length → extract_price M = some (s.getD (s.length / 2) 0)) ∧
    (s.length = 1 → extract_price M = some (s.headD 0)) := by
  have hlen : s.length = (dedupFirst (collectPrices M)).length := hperm.length_eq
  constructor
  · intro h2
    have hne : collectPrices M ≠ [] := by
      intro h0
      rw [h0] at hperm
      have : s = [] := by simpa [dedupFirst, dedupFirstAux] using hperm
      rw [this] at h2
      simp at h2
    have hseq := sorted_distinct_unique M s hsort hperm
    have hne1 : (dedupFirst (collectPrices M)).length ≠ 1 := by
      rw [← hlen]; omega
    simp only [extract_price]
    rw [if_neg (by simpa using hne), if_neg (by simpa using hne1), hseq]
  · intro h1
    rcases List.length_eq_one.mp h1 with ⟨v, hv⟩
    subst hv
    have hd : dedupFirst (collectPrices M) = [v] :=
      List.perm_singleton.mp hperm.symm
    have hne : collectPrices M ≠ [] := by
      intro h0
      rw [h0] at hd
      simp [dedupFirst, dedupFirstAux] at hd
    simp only [extract_price]
    rw [if_neg (by simpa using hne), if_pos (by rw [hd]; rfl), hd]

/-- Claim C1, witness: the amended claim applied at matches "2500", "1500"
(two distinct in-range values) yields the sorted element at index 1. -/
theorem claim_C1_witness :
    (2 : ℕ) ≤ ([1500, 2500] : List ℚ).length ∧
      extract_price [["2500".data, "1500".data]] = some 2500 := by
  refine ⟨by decide, ?_⟩
  have h := (claim_C1 [["2500".data, "1500".data]] [1500, 2500]
      (by decide) (by decide)).1 (by decide)
  exact h

/-- Claim C2: a parsed value outside the closed interval [1000, 200000] is
discarded by the candidate filter no matter which pattern produced the
match; every member of the candidate list is in the interval, and any price
`extract_price` returns is in the interval. -/
theorem claim_C2 (M : List (List (List Char))) :
    (∀ m v, parseDecimal (stripCommas m) = some v →
      (v < 1000 ∨ 200000 < v) → matchCandidate m = none) ∧
    (∀ p ∈ collectPrices M, 1000 ≤ p ∧ p ≤ 200000) ∧
    (∀ p, extract_price M = some p → 1000 ≤ p ∧ p ≤ 200000) := by
  refine ⟨?_, ?_, ?_⟩
  · intro m v hv hout
    have hr : ¬(1000 ≤ v ∧ v ≤ 200000) := by
      rcases hout with h | h
      · intro hc; exact absurd hc.1 (not_le.mpr h)
      · intro hc; exact absurd hc.2 (not_le.mpr h)
    simp only [matchCandidate, hv]
    rw [if_neg hr]
  · intro p hp
    exact mem_collectPrices_range M p hp
  · intro p hp
    exact mem_collectPrices_range M p (extract_price_mem M p hp)

/-- Claim C2, witness: the matched "999999" parses to 999999, lies above
200000, and is discarded; the value 1500 returned on the sample matches is
inside the interval. -/
theorem claim_C2_witness :
    matchCandidate "999999".data = none ∧
      (1000 ≤ (1500 : ℚ) ∧ (1500 : ℚ) ≤ 200000) :=
  ⟨(claim_C2 []).1 "999999".data 999999 (by decide) (by decide),
    (claim_C2 [["999999".data, "1500".data]]).2.2 1500 (by decide)⟩

/-- Claim C8: with no pattern matches at all `extract_price` returns `none`;
whenever no candidate survives filtering it returns `none`; and a matched
substring that fails to parse is discarded without affecting the result
computed from the remaining matches. -/
theorem claim_C8 :
    (∀ M, (∀ ms ∈ M, ms = []) → extract_price M = none) ∧
    (∀ M, collectPrices M = [] → extract_price M = none) ∧
    (∀ A B pre post m, parseDecimal (stripCommas m) = none →
      extract_price (A ++ (pre ++ m :: post) :: B)
        = extract_price (A ++ (pre ++ post) :: B)) := by
  refine ⟨?_, ?_, ?_⟩
  · intro M h
    exact extract_price_of_nil M (collectPrices_nil M h)
  · intro M h
    exact extract_price_of_nil M h
  · intro A B pre post m hm
    have hc : matchCandidate m = none := by simp [matchCandidate, hm]
    refine extract_price_congr _ _ ?_
    simp only [collectPrices, List.flatMap_append, List.flatMap_cons,
      List.filterMap_append, List.filterMap_cons, hc]

/-- Claim C8, witness: ten empty match lists give `none`; inserting the
unparseable match "," (which strips to the empty string) before "1500"
leaves the extraction result unchanged. -/
theorem claim_C8_witness :
    extract_price [[], [], [], [], [], [], [], [], [], []] = none ∧
      extract_price ([] ++ ([] ++ ",".data :: ["1500".data]) :: [])
        = extract_price ([] ++ ([] ++ ["1500".data]) :: []) :=
  ⟨claim_C8.1 [[], [], [], [], [], [], [], [], [], []] (by decide),
    claim_C8.2.2 [] [] [] ["1500".data] ",".data (by decide)⟩

/-! ### Claims about link discovery -/

/-- Claim C7: when the search fetch raises, `search_links` catches the
failure and returns the empty list instead of propagating the exception. -/
theorem claim_C7 (e : List Char) : search_links (.error e) = [] := rfl

/-- Claim C5: the discovered link list has at most 3 entries, no duplicate
URL strings, preserves first-seen order (it is an order-preserving
subsequence of the cleaned-and-validated candidate stream), and each entry
starts with an HTTP(S) scheme, is at least 30 characters long, and contains
one of the product-detail path tokens `dp/`, `/p/`, `itm/`. -/
theorem claim_C5 (fetchOutcome : Except (List Char) SearchContent) :
    (search_links fetchOutcome).length ≤ 3 ∧
    (search_links fetchOutcome).Nodup ∧
    (∀ u ∈ search_links fetchOutcome,
      ("http://".data <+: u ∨ "https://".data <+: u) ∧
      30 ≤ u.length ∧
      ("dp/".data <:+: u ∨ "/p/".data <:+: u ∨ "itm/".data <:+: u)) ∧
    (∀ c, fetchOutcome = .ok c →
      (search_links fetchOutcome).Sublist
        (((c.amazonMatches ++ c.flipkartMatches ++ c.ebayMatches).map
          sanitize).filter validLink)) := by
  cases fetchOutcome with
  | error e => simp [search_links]
  | ok c =>
      have hform : search_links (.ok c)
          = (dedupFirst (((c.amazonMatches ++ c.flipkartMatches
              ++ c.ebayMatches).map sanitize).filter validLink)).take 3 := rfl
      refine ⟨?_, ?_, ?_, ?_⟩
      · rw [hform]; exact List.length_take_le 3 _
      · rw [hform]
        exact List.Nodup.sublist (List.take_sublist 3 _) (nodup_dedupFirst _)
      · intro u hu
        rw [hform] at hu
        have hu2 : u ∈ dedupFirst (((c.amazonMatches ++ c.flipkartMatches
            ++ c.ebayMatches).map sanitize).filter validLink) :=
          (List.take_sublist 3 _).subset hu
        have hu3 := (mem_dedupFirst _ _).mp hu2
        have hv : validLink u = true := (List.mem_filter.mp hu3).2
        simp only [validLink, Bool.and_eq_true, Bool.or_eq_true, prefixB_iff,
          infixB_iff, decide_eq_true_eq] at hv
        refine ⟨?_, Nat.le_of_lt hv.1.2, ?_⟩
        · simpa using hv.1.1
        · simpa [or_assoc] using hv.2
      · intro c' hc
        injection hc with hc'
        subst hc'
        rw [hform]
        exact (List.take_sublist 3 _).trans (dedupFirst_sublist _)

/-- Claim C5, witness: on a search page containing one raw Amazon match with
a markup tail, the returned link satisfies all per-URL guarantees. -/
theorem claim_C5_witness :
    ("http://".data <+: "https://www.amazon.in/product/dp/B0ABC123".data
        ∨ "https://".data <+: "https://www.amazon.in/product/dp/B0ABC123".data) ∧
      30 ≤ "https://www.amazon.in/product/dp/B0ABC123".data.length ∧
      ("dp/".data <:+: "https://www.amazon.in/product/dp/B0ABC123".data
        ∨ "/p/".data <:+: "https://www.amazon.in/product/dp/B0ABC123".data
        ∨ "itm/".data <:+: "https://www.amazon.in/product/dp/B0ABC123".data) :=
  (claim_C5 (.ok ⟨["https://www.amazon.in/product/dp/B0ABC123<div>".data],
      [], []⟩)).2.2.1 "https://www.amazon.in/product/dp/B0ABC123".data
    (by decide)

/-- Claim C10: the discovered list is grouped by marketplace in the fixed
pattern order — a block drawn from the cleaned valid Amazon matches, then
one from the Flipkart matches, then one from the eBay matches — each block
an order-preserving subsequence of its pattern's matches in occurrence
order. -/
theorem claim_C10 (c : SearchContent) :
    ∃ a f e, search_links (.ok c) = a ++ f ++ e ∧
      a.Sublist ((c.amazonMatches.map sanitize).filter validLink) ∧
      f.Sublist ((c.flipkartMatches.map sanitize).filter validLink) ∧
      e.Sublist ((c.ebayMatches.map sanitize).filter validLink) := by
  have hform : search_links (.ok c)
      = (dedupFirst (((c.amazonMatches ++ c.flipkartMatches
          ++ c.ebayMatches).map sanitize).filter validLink)).take 3 := rfl
  have hsub : (search_links (.ok c)).Sublist
      ((c.amazonMatches.map sanitize).filter validLink
        ++ (c.flipkartMatches.map sanitize).filter validLink
        ++ (c.ebayMatches.map sanitize).filter validLink) := by
    rw [hform]
    have h1 := (List.take_sublist 3 _).trans (dedupFirst_sublist
      (((c.amazonMatches ++ c.flipkartMatches ++ c.ebayMatches).map
        sanitize).filter validLink))
    simpa [List.map_append, List.filter_append] using h1
  rcases List.sublist_append_iff.mp hsub with ⟨l1, e, he, hl1, hesub⟩
  rcases List.sublist_append_iff.mp hl1 with ⟨a, f, haf, hasub, hfsub⟩
  exact ⟨a, f, e, by rw [he, haf], hasub, hfsub, hesub⟩

/-! ### Claims about the crawl orchestrator -/

theorem crawl_price_url (extractor : List Char → Option ℚ) (u : List Char)
    (o : Except (List Char) FetchResult) :
    (crawl_price extractor u o).url = u := by
  cases o <;> rfl

/-- Claim C4: an exception while fetching link `i` is converted, at that
link's boundary, into the observation `{url, price: none, error: message}`;
every other link's observation is the same as it would be under any fetch
oracle agreeing outside the failing URL — one failure neither aborts nor
alters the rest of the batch. -/
theorem claim_C4 (extractor : List Char → Option ℚ)
    (links : List (List Char))
    (fetch fetchB : List Char → Except (List Char) FetchResult)
    (i : ℕ) (u e : List Char)
    (hu : links[i]? = some u) (hf : fetch u = .error e)
    (hagree : ∀ l, l ≠ u → fetch l = fetchB l) :
    (collect extractor fetch links)[i]? = some ⟨u, none, some e⟩ ∧
    ∀ (j : ℕ) (v : List Char), links[j]? = some v → v ≠ u →
      (collect extractor fetch links)[j]?
        = (collect extractor fetchB links)[j]? := by
  constructor
  · rw [collect, List.getElem?_map, hu]
    simp [crawl_price, hf]
  · intro j v hv hne
    rw [collect, collect, List.getElem?_map, List.getElem?_map, hv]
    simp [hagree v hne]

/-- Claim C4, witness: among two links, the second link's fetch raises and
yields exactly the error observation. -/
theorem claim_C4_witness :
    (collect (fun _ => none)
        (fun l => if l = "https://y".data then .error "boom".data
          else .ok ⟨none, none⟩)
        ["https://x".data, "https://y".data])[1]?
      = some ⟨"https://y".data, none, some "boom".data⟩ :=
  (claim_C4 (fun _ => none) ["https://x".data, "https://y".data]
    (fun l => if l = "https://y".data then .error "boom".data
      else .ok ⟨none, none⟩)
    (fun _ => .ok ⟨none, none⟩) 1 "https://y".data "boom".data
    (by decide) (by simp)
    (fun l hl => by simp [hl])).1

theorem mem_indexFrom :
    ∀ (xs : List α) (k : ℕ) (p : ℕ × α),
      p ∈ indexFrom k xs ↔ ∃ j, p.1 = k + j ∧ xs[j]? = some p.2 := by
  intro xs
  induction xs with
  | nil => intro k p; simp [indexFrom]
  | cons a rest ih =>
      intro k p
      constructor
      · intro hp
        have hp' : p ∈ (k, a) :: indexFrom (k + 1) rest := hp
        rcases List.mem_cons.mp hp' with h1 | h2
        · refine ⟨0, ?_, ?_⟩
          · rw [h1]; rfl
          · rw [h1, List.getElem?_cons_zero]
        · rcases (ih (k + 1) p).mp h2 with ⟨j, hj, hx⟩
          refine ⟨j + 1, by omega, ?_⟩
          rw [List.getElem?_cons_succ]
          exact hx
      · rintro ⟨j, hj, hx⟩
        show p ∈ (k, a) :: indexFrom (k + 1) rest
        cases j with
        | zero =>
            rw [List.getElem?_cons_zero] at hx
            have h2 : p.2 = a := by injection hx with h; exact h.symm
            have h1 : p.1 = k := by omega
            have hpk : p = (k, a) := Prod.ext h1 h2
            rw [hpk]
            exact List.mem_cons_self _ _
        | succ j =>
            rw [List.getElem?_cons_succ] at hx
            exact List.mem_cons_of_mem _
              ((ih (k + 1) p).mpr ⟨j, by omega, hx⟩)

theorem find?_key_unique {β : Type} (i : ℕ) (t : ℕ × β) :
    ∀ (l : List (ℕ × β)), t ∈ l → (∀ p ∈ l, p.1 = i → p = t) → t.1 = i →
      l.find? (fun p => p.1 == i) = some t := by
  intro l
  induction l with
  | nil => intro hmem; cases hmem
  | cons q rest ih =>
      intro hmem huniq hti
      by_cases hq : q.1 = i
      · rw [List.find?_cons_of_pos _ (by simpa using hq)]
        exact congrArg some (huniq q (List.mem_cons_self _ _) hq)
      · rw [List.find?_cons_of_neg _ (by simpa using hq)]
        refine ih ?_ (fun p hp hpi => huniq p (List.mem_cons_of_mem _ hp) hpi) hti
        rcases List.mem_cons.mp hmem with h1 | h2
        · exact absurd (h1 ▸ hti) hq
        · exact h2

theorem find?_indexFrom_perm (xs : List PriceObservation)
    (completed : List (ℕ × PriceObservation))
    (hperm : completed.Perm (indexFrom 0 xs)) (i : ℕ) (v : PriceObservation)
    (hv : xs[i]? = some v) :
    completed.find? (fun p => p.1 == i) = some (i, v) := by
  have hmem : (i, v) ∈ completed :=
    hperm.mem_iff.mpr ((mem_indexFrom xs 0 (i, v)).mpr ⟨i, by simp, hv⟩)
  have huniq : ∀ p ∈ completed, p.1 = i → p = (i, v) := by
    intro p hp hpi
    rcases (mem_indexFrom xs 0 p).mp (hperm.mem_iff.mp hp) with ⟨j, hj, hx⟩
    have hji : j = i := by omega
    rw [hji, hv] at hx
    have h2 : p.2 = v := by injection hx with h; exact h.symm
    exact Prod.ext (by omega) h2
  exact find?_key_unique i (i, v) completed hmem huniq rfl

theorem filterMap_range_eq {β : Type} :
    ∀ (xs : List β) (F : ℕ → Option β),
      (∀ (i : ℕ) (v : β), xs[i]? = some v → F i = some v) →
      (List.range xs.length).filterMap F = xs := by
  intro xs
  induction xs with
  | nil => intro F h; simp
  | cons a rest ih =>
      intro F h
      have h0 : F 0 = some a := h 0 a (by simp)
      simp only [List.length_cons, List.range_succ_eq_map, List.filterMap_cons,
        h0, List.filterMap_map]
      congr 1
      refine ih (F ∘ Nat.succ) ?_
      intro i v hv
      exact h (i + 1) v (by simpa using hv)

theorem gatherAssemble_eq (xs : List PriceObservation)
    (completed : List (ℕ × PriceObservation))
    (hperm : completed.Perm (indexFrom 0 xs)) :
    gatherAssemble xs.length completed = xs := by
  unfold gatherAssemble
  refine filterMap_range_eq xs _ ?_
  intro i v hv
  rw [find?_indexFrom_perm xs completed hperm i v hv]
  rfl

/-- Claim C6: the output of the fan-out has exactly one observation per
input link, in input order — assembling the task results from any
completion order (any permutation of the indexed results) yields the same
list as mapping over the links in order, and the observation at position
`i` is the crawl of the link at position `i` and carries that link's URL. -/
theorem claim_C6 (extractor : List Char → Option ℚ)
    (fetch : List Char → Except (List Char) FetchResult)
    (links : List (List Char))
    (completed : List (ℕ × PriceObservation))
    (hperm : completed.Perm (indexFrom 0 (collect extractor fetch links))) :
    gatherAssemble links.length completed = collect extractor fetch links ∧
    (collect extractor fetch links).length = links.length ∧
    ∀ (i : ℕ) (l : List Char), links[i]? = some l →
      (collect extractor fetch links)[i]?
          = some (crawl_price extractor l (fetch l)) ∧
        (crawl_price extractor l (fetch l)).url = l := by
  have hlen : (collect extractor fetch links).length = links.length := by
    simp [collect]
  refine ⟨?_, hlen, ?_⟩
  · have h := gatherAssemble_eq (collect extractor fetch links) completed hperm
    rwa [hlen] at h
  · intro i l hl
    constructor
    · rw [collect, List.getElem?_map, hl]
      rfl
    · exact crawl_price_url extractor l (fetch l)

/-- Claim C6, witness: two links whose fetches both fail, with the
completion order reversed relative to the task order; reassembly still
returns the observations in link order. -/
theorem claim_C6_witness :
    gatherAssemble 2
        [(1, ⟨"https://b".data, none, some "x".data⟩),
          (0, ⟨"https://a".data, none, some "x".data⟩)]
      = collect (fun _ => none) (fun _ => .error "x".data)
          ["https://a".data, "https://b".data] :=
  (claim_C6 (fun _ => none) (fun _ => .error "x".data)
    ["https://a".data, "https://b".data]
    [(1, ⟨"https://b".data, none, some "x".data⟩),
      (0, ⟨"https://a".data, none, some "x".data⟩)]
    (by decide)).1

/-! ### Claims about aggregation and the route handler -/

theorem minAcc_mem :
    ∀ (l : List PriceObservation) (best : PriceObservation),
      minAcc best l ∈ best :: l := by
  intro l
  induction l with
  | nil => intro best; simp [minAcc]
  | cons x rest ih =>
      intro best
      by_cases h : x.price.getD 0 < best.price.getD 0
      · rw [show minAcc best (x :: rest) = minAcc x rest from by simp [minAcc, h]]
        exact List.mem_cons_of_mem best (ih x)
      · rw [show minAcc best (x :: rest) = minAcc best rest from
          by simp [minAcc, h]]
        rcases List.mem_cons.mp (ih best) with h1 | h1
        · rw [h1]; exact List.mem_cons_self _ _
        · exact List.mem_cons_of_mem _ (List.mem_cons_of_mem _ h1)

theorem minAcc_le :
    ∀ (l : List PriceObservation) (best : PriceObservation),
      (minAcc best l).price.getD 0 ≤ best.price.getD 0 ∧
      ∀ x ∈ l, (minAcc best l).price.getD 0 ≤ x.price.getD 0 := by
  intro l
  induction l with
  | nil => intro best; exact ⟨le_refl _, by simp⟩
  | cons x rest ih =>
      intro best
      by_cases h : x.price.getD 0 < best.price.getD 0
      · rw [show minAcc best (x :: rest) = minAcc x rest from by simp [minAcc, h]]
        rcases ih x with ⟨h1, h2⟩
        refine ⟨le_trans h1 (le_of_lt h), ?_⟩
        intro y hy
        rcases List.mem_cons.mp hy with rfl | hy'
        · exact h1
        · exact h2 y hy'
      · rw [show minAcc best (x :: rest) = minAcc best rest from
          by simp [minAcc, h]]
        rcases ih best with ⟨h1, h2⟩
        refine ⟨h1, ?_⟩
        intro y hy
        rcases List.mem_cons.mp hy with rfl | hy'
        · exact le_trans h1 (not_lt.mp h)
        · exact h2 y hy'

theorem minAcc_find :
    ∀ (l : List PriceObservation) (best : PriceObservation),
      (best :: l).find?
          (fun o => decide (o.price.getD 0 = (minAcc best l).price.getD 0))
        = some (minAcc best l) := by
  intro l
  induction l with
  | nil =>
      intro best
      rw [show minAcc best [] = best from rfl]
      exact List.find?_cons_of_pos _ (by simp)
  | cons x rest ih =>
      intro best
      by_cases h : x.price.getD 0 < best.price.getD 0
      · rw [show minAcc best (x :: rest) = minAcc x rest from by simp [minAcc, h]]
        have hb_ne : ¬(best.price.getD 0 = (minAcc x rest).price.getD 0) := by
          intro hc
          have hle := (minAcc_le rest x).1
          rw [← hc] at hle
          exact absurd (lt_of_le_of_lt hle h) (lt_irrefl _)
        rw [List.find?_cons_of_neg _ (by simpa using hb_ne)]
        exact ih x
      · rw [show minAcc best (x :: rest) = minAcc best rest from
          by simp [minAcc, h]]
        by_cases hb : best.price.getD 0 = (minAcc best rest).price.getD 0
        · rw [List.find?_cons_of_pos _ (by simpa using hb)]
          have hih := ih best
          rw [List.find?_cons_of_pos _ (by simpa using hb)] at hih
          exact hih
        · rw [List.find?_cons_of_neg _ (by simpa using hb)]
          have hih := ih best
          rw [List.find?_cons_of_neg _ (by simpa using hb)] at hih
          have hx_ne : ¬(x.price.getD 0 = (minAcc best rest).price.getD 0) := by
            intro hc
            have h1 := (minAcc_le rest best).1
            have h2 := not_lt.mp h
            rw [hc] at h2
            exact hb (le_antisymm h2 h1)
          rw [List.find?_cons_of_neg _ (by simpa using hx_ne)]
          exact hih

theorem find?_filter_of_imp {γ : Type} (l : List γ) (p q : γ → Bool)
    (h : ∀ a, p a = true → q a = true) :
    (l.filter q).find? p = l.find? p := by
  induction l with
  | nil => rfl
  | cons a rest ih =>
      by_cases hq : q a = true
      · rw [List.filter_cons_of_pos hq]
        by_cases hp : p a = true
        · rw [List.find?_cons_of_pos _ hp, List.find?_cons_of_pos _ hp]
        · rw [List.find?_cons_of_neg _ hp, List.find?_cons_of_neg _ hp]
          exact ih
      · rw [List.filter_cons_of_neg hq]
        have hp : ¬(p a = true) := fun hpa => hq (h a hpa)
        rw [List.find?_cons_of_neg _ hp]
        exact ih

theorem find?_congr_pred {γ : Type} (l : List γ) (p q : γ → Bool)
    (h : ∀ a ∈ l, p a = q a) : l.find? p = l.find? q := by
  induction l with
  | nil => rfl
  | cons a rest ih =>
      have ha := h a (List.mem_cons_self _ _)
      by_cases hp : p a = true
      · rw [List.find?_cons_of_pos _ hp, List.find?_cons_of_pos _ (ha ▸ hp)]
      · rw [List.find?_cons_of_neg _ hp, List.find?_cons_of_neg _ (ha ▸ hp)]
        exact ih (fun b hb => h b (List.mem_cons_of_mem _ hb))

/-- Claim C3: `best` is `none` exactly when no observation carries a price;
otherwise the reported best observation is drawn from the input list, its
price is a minimum of all non-null prices, and it is the first observation
in input order attaining that minimum. -/
theorem claim_C3 (results : List PriceObservation) :
    (bestOf results = none ↔ ∀ o ∈ results, o.price = none) ∧
    (∀ b, bestOf results = some b →
      b ∈ results ∧ ∃ m, b.price = some m ∧
        (∀ o ∈ results, ∀ q, o.price = some q → m ≤ q) ∧
        results.find? (fun o => decide (o.price = some m)) = some b) := by
  constructor
  · cases hf : results.filter (fun r => r.price.isSome) with
    | nil =>
        rw [show bestOf results = none from by simp [bestOf, hf]]
        simp only [true_iff]
        intro o ho
        have := List.filter_eq_nil_iff.mp hf o ho
        simpa using this
    | cons p rest =>
        rw [show bestOf results = some (minAcc p rest) from by simp [bestOf, hf]]
        constructor
        · intro hcont; cases hcont
        · intro hall
          have hp : p ∈ results.filter (fun r => r.price.isSome) := by
            rw [hf]; exact List.mem_cons_self _ _
          have h1 := (List.mem_filter.mp hp).2
          have h2 := hall p (List.mem_of_mem_filter hp)
          rw [h2] at h1
          cases h1
  · intro b hb
    cases hf : results.filter (fun r => r.price.isSome) with
    | nil => rw [show bestOf results = none from by simp [bestOf, hf]] at hb; cases hb
    | cons p rest =>
        rw [show bestOf results = some (minAcc p rest) from
          by simp [bestOf, hf]] at hb
        injection hb with hb'
        have hbmem : b ∈ results.filter (fun r => r.price.isSome) := by
          rw [hf, ← hb']; exact minAcc_mem rest p
        have hbs : b.price.isSome = true := (List.mem_filter.mp hbmem).2
        rcases Option.isSome_iff_exists.mp hbs with ⟨m, hm⟩
        have hkey : b.price.getD 0 = m := by rw [hm]; rfl
        refine ⟨List.mem_of_mem_filter hbmem, m, hm, ?_, ?_⟩
        · intro o ho q hq
          have hof : o ∈ results.filter (fun r => r.price.isSome) :=
            List.mem_filter.mpr ⟨ho, by rw [hq]; rfl⟩
          rw [hf] at hof
          have hle : (minAcc p rest).price.getD 0 ≤ o.price.getD 0 := by
            rcases List.mem_cons.mp hof with hop | ho'
            · rw [hop]; exact (minAcc_le rest p).1
            · exact (minAcc_le rest p).2 o ho'
          rw [hb'] at hle
          rw [hkey] at hle
          rw [hq] at hle
          simpa using hle
        · have step1 : results.find? (fun o => decide (o.price = some m))
              = (results.filter (fun r => r.price.isSome)).find?
                  (fun o => decide (o.price = some m)) := by
            refine (find?_filter_of_imp results _ _ ?_).symm
            intro a ha
            have : a.price = some m := of_decide_eq_true ha
            rw [this]; rfl
          have step2 : (results.filter (fun r => r.price.isSome)).find?
                (fun o => decide (o.price = some m))
              = (p :: rest).find?
                  (fun o => decide (o.price.getD 0
                    = (minAcc p rest).price.getD 0)) := by
            rw [hf]
            refine find?_congr_pred _ _ _ ?_
            intro a ha
            have has : a.price.isSome = true := by
              have : a ∈ results.filter (fun r => r.price.isSome) := by
                rw [hf]; exact ha
              exact (List.mem_filter.mp this).2
            rcases Option.isSome_iff_exists.mp has with ⟨qa, hqa⟩
            refine decide_eq_decide.mpr ?_
            rw [hqa, hb', hkey]
            simp
          rw [step1, step2, minAcc_find rest p, hb']

/-- Claim C3, witness: over observations with prices 25999, none, 24999 the
reported best is the third observation, which is in the list, has the
minimal price 24999, and is the first observation with that price. -/
theorem claim_C3_witness :
    (⟨"u3".data, some 24999, none⟩ : PriceObservation) ∈
        ([⟨"u1".data, some 25999, none⟩, ⟨"u2".data, none, some "err".data⟩,
          ⟨"u3".data, some 24999, none⟩] : List PriceObservation) ∧
      ∃ m, (⟨"u3".data, some 24999, none⟩ : PriceObservation).price = some m ∧
        (∀ o ∈ ([⟨"u1".data, some 25999, none⟩,
            ⟨"u2".data, none, some "err".data⟩,
            ⟨"u3".data, some 24999, none⟩] : List PriceObservation),
          ∀ q, o.price = some q → m ≤ q) ∧
        ([⟨"u1".data, some 25999, none⟩, ⟨"u2".data, none, some "err".data⟩,
          ⟨"u3".data, some 24999, none⟩] : List PriceObservation).find?
            (fun o => decide (o.price = some m))
          = some ⟨"u3".data, some 24999, none⟩ :=
  (claim_C3 [⟨"u1".data, some 25999, none⟩, ⟨"u2".data, none, some "err".data⟩,
    ⟨"u3".data, some 24999, none⟩]).2 ⟨"u3".data, some 24999, none⟩ (by decide)

/-- Claim C9: a missing or blank-after-trimming product is rejected with
status 400 and body error "No product name provided", and the response does
not depend on the discovery, fetch or extraction oracles (no discovery or
crawling is performed); a non-blank product whose discovery yields no links
is answered with status 404 and body error "No product links found". -/
theorem claim_C9 (productField : Option (List Char))
    (searchOutcome : Except (List Char) SearchContent)
    (fetch : List Char → Except (List Char) FetchResult)
    (extractor : List Char → Option ℚ) :
    (pyStrip (productField.getD []) = [] →
      best_price productField searchOutcome fetch extractor
          = ⟨400, .err "No product name provided".data⟩ ∧
      ∀ (searchOutcome2 : Except (List Char) SearchContent)
        (fetch2 : List Char → Except (List Char) FetchResult)
        (extractor2 : List Char → Option ℚ),
        best_price productField searchOutcome2 fetch2 extractor2
          = best_price productField searchOutcome fetch extractor) ∧
    (pyStrip (productField.getD []) ≠ [] → search_links searchOutcome = [] →
      best_price productField searchOutcome fetch extractor
        = ⟨404, .err "No product links found".data⟩) := by
  constructor
  · intro h
    constructor
    · simp only [best_price]
      rw [if_pos (by simp [h])]
    · intro s2 f2 e2
      simp only [best_price]
      rw [if_pos (by simp [h]), if_pos (by simp [h])]
  · intro h hlinks
    simp only [best_price]
    rw [if_neg (by simpa using h), hlinks]
    rfl

/-- Claim C9, witness: a whitespace-only product and a product consisting of
a single no-break space (code point 160, stripped by `str.strip()`) each
give the 400 response for arbitrary oracles; the product "iphone" with a
failing search fetch (zero discovered links) gives the 404 response. -/
theorem claim_C9_witness :
    best_price (some "   ".data) (.error "se".data)
        (fun _ => .error "fe".data) (fun _ => none)
      = ⟨400, .err "No product name provided".data⟩ ∧
    best_price (some [Char.ofNat 160]) (.error "se".data)
        (fun _ => .error "fe".data) (fun _ => none)
      = ⟨400, .err "No product name provided".data⟩ ∧
    best_price (some "iphone".data) (.error "se".data)
        (fun _ => .error "fe".data) (fun _ => none)
      = ⟨404, .err "No product links found".data⟩ :=
  ⟨((claim_C9 (some "   ".data) (.error "se".data)
      (fun _ => .error "fe".data) (fun _ => none)).1 (by decide)).1,
    ((claim_C9 (some [Char.ofNat 160]) (.error "se".data)
      (fun _ => .error "fe".data) (fun _ => none)).1 (by decide)).1,
    (claim_C9 (some "iphone".data) (.error "se".data)
      (fun _ => .error "fe".data) (fun _ => none)).2 (by decide) rfl⟩
